import Mathlib

/-!
# Verification of the terrain-LOD core: quadtree, binary-decoder validation,
# AABB and frustum-culling geometry

Shallow embedding of the Rust sources (`quadtree.rs`, `cell.rs`, `aabb.rs`,
`geometry.rs`, `camera.rs`, `map.rs`).  Machine `f64`/`f32` values are
modelled as rationals (`ℚ`) where the code only adds, multiplies, compares
and takes min/max, and as reals (`ℝ`) where trigonometry is involved.
`u32`/`usize` quantities are modelled as `ℕ`; none of the verified claims
exercise inputs near the overflow boundary (cell depths are restricted to
`[1, 9]` by the loader).
-/

/-! ## `quadtree.rs` : `util::full_size`, `util::node_index` -/

/-- `pub fn full_size(depth: u32) -> u32 { 4u32.pow(depth) / 3 }`
(`quadtree.rs` line 156).  Natural-number division matches the `u32`
truncating division; no overflow occurs for the depths in range. -/
def fullSize (depth : Nat) : Nat := 4 ^ depth / 3

/-- `pub fn node_index(level: u32, row: u32, col: u32) -> u32
{ full_size(level) + (row << level) + col }` (`quadtree.rs` line 160). -/
def nodeIndex (level row col : Nat) : Nat := fullSize level + (row <<< level) + col

theorem nodeIndex_eq (level row col : Nat) :
    nodeIndex level row col = fullSize level + row * 2 ^ level + col := by
  simp [nodeIndex, Nat.shiftLeft_eq]

theorem four_pow_mod_three (d : Nat) : 4 ^ d % 3 = 1 := by
  induction d with
  | zero => rfl
  | succ n ih => rw [pow_succ, Nat.mul_mod, ih]

theorem fullSize_eq (d : Nat) : fullSize d = (4 ^ d - 1) / 3 := by
  have h := four_pow_mod_three d
  have hp : 1 ≤ 4 ^ d := Nat.one_le_pow _ _ (by norm_num)
  unfold fullSize
  generalize 4 ^ d = n at *
  omega

theorem fullSize_succ (d : Nat) : fullSize (d + 1) = fullSize d + 4 ^ d := by
  have h := four_pow_mod_three d
  have h4 : 4 ^ (d + 1) = 4 * 4 ^ d := by rw [pow_succ]; ring
  unfold fullSize
  rw [h4]
  generalize 4 ^ d = n at *
  omega

/-! ## `quadtree.rs` : the leaf-valued `QuadTree<T>` -/

/-- `enum QuadTree<T> { Element(T), Quadrant(Box<Quadrant<T>>) }` together
with `struct Quadrant<T> { nw, ne, se, sw: QuadTree<T>, depth: u32 }`
(`quadtree.rs` lines 3-17).  Values live only at the leaves. -/
inductive QuadTree (T : Type) : Type where
  | element (v : T) : QuadTree T
  | quadrant (nw ne se sw : QuadTree T) (depth : Nat) : QuadTree T
  deriving DecidableEq

/-- `QuadTree::build_tree(elements, depth)` (`quadtree.rs` lines 20-46).
The Rust `assert_eq!(elements.len(), n)` with `n = 4^depth` is modelled by
returning `none`; `Vec::split_off(k)` keeps `[0, k)` in place and returns
`[k, ..)`, so `north = take (n/2)`, `south = drop (n/2)`, and within each
half `nw/se = take (n/4)` and `ne/sw = drop (n/4)`.  At depth 0 the code
pops the single element off the vector. -/
def buildTree {T : Type} (l : List T) : Nat → Option (QuadTree T)
  | 0 => if l.length = 1 then l.getLast?.map .element else none
  | d + 1 =>
    if l.length = 4 ^ (d + 1) then
      match buildTree ((l.take (4 ^ (d + 1) / 2)).take (4 ^ (d + 1) / 4)) d,
            buildTree ((l.take (4 ^ (d + 1) / 2)).drop (4 ^ (d + 1) / 4)) d,
            buildTree ((l.drop (4 ^ (d + 1) / 2)).take (4 ^ (d + 1) / 4)) d,
            buildTree ((l.drop (4 ^ (d + 1) / 2)).drop (4 ^ (d + 1) / 4)) d with
      | some a, some b, some c, some e => some (.quadrant a b c e (d + 1))
      | _, _, _, _ => none
    else none

/-- `QuadTree::mut_view` (`quadtree.rs` lines 55-69): flattens the tree by
visiting `nw, ne, se, sw` in that order, collecting a reference to every
leaf value.  Modelled as the list of leaf values in visit order. -/
def mutView {T : Type} : QuadTree T → List T
  | .element v => [v]
  | .quadrant nw ne se sw _ => mutView nw ++ mutView ne ++ mutView se ++ mutView sw

/-! ## Claim C5 -/

/-- C5: for every depth `d` in `1..=10`, `full_size(d)` equals
`(4^d − 1)/3`, the number of nodes of a complete quadtree with `d` levels. -/
theorem fullSize_claim (d : Nat) (h1 : 1 ≤ d) (h2 : d ≤ 10) :
    fullSize d = (4 ^ d - 1) / 3 :=
  fullSize_eq d

theorem fullSize_claim_witness :
    1 ≤ 3 ∧ 3 ≤ 10 ∧ fullSize 3 = (4 ^ 3 - 1) / 3 :=
  ⟨by decide, by decide, fullSize_claim 3 (by decide) (by decide)⟩

/-! ## Claim C6 -/

theorem base_digit_unique {m a b a' b' : Nat} (hb : b < m) (hb' : b' < m)
    (h : a * m + b = a' * m + b') : a = a' ∧ b = b' := by
  have h1 : (a * m + b) % m = b := by
    rw [Nat.add_comm, Nat.add_mul_mod_self_right]; exact Nat.mod_eq_of_lt hb
  have h2 : (a' * m + b') % m = b' := by
    rw [Nat.add_comm, Nat.add_mul_mod_self_right]; exact Nat.mod_eq_of_lt hb'
  have hbb : b = b' := by rw [← h1, ← h2, h]
  refine ⟨?_, hbb⟩
  have hm : 0 < m := by omega
  exact Nat.eq_of_mul_eq_mul_right hm (by omega)

theorem four_pow_as_square (l : Nat) : 4 ^ l = 2 ^ l * 2 ^ l := by
  rw [show (4 : Nat) = 2 * 2 from rfl, Nat.mul_pow]

/-- C6: for every level `ℓ`, `(row, col) ↦ node_index(ℓ, row, col)` restricted
to `row, col < 2^ℓ` is a bijection onto `[full_size(ℓ), full_size(ℓ+1))`. -/
theorem nodeIndex_bijOn (l : Nat) :
    Set.BijOn (fun p : Nat × Nat => nodeIndex l p.1 p.2)
      (Set.Iio (2 ^ l) ×ˢ Set.Iio (2 ^ l))
      (Set.Ico (fullSize l) (fullSize (l + 1))) := by
  have hpow : 0 < 2 ^ l := Nat.pos_pow_of_pos l (by norm_num)
  refine ⟨?_, ?_, ?_⟩
  · rintro ⟨r, c⟩ ⟨hr, hc⟩
    simp only [Set.mem_Iio] at hr hc
    simp only [Set.mem_Ico, nodeIndex_eq, fullSize_succ]
    constructor
    · omega
    · have h1 : r * 2 ^ l + c < (r + 1) * 2 ^ l := by
        have := Nat.add_lt_add_left hc (r * 2 ^ l)
        calc r * 2 ^ l + c < r * 2 ^ l + 2 ^ l := this
          _ = (r + 1) * 2 ^ l := by ring
      have h2 : (r + 1) * 2 ^ l ≤ 2 ^ l * 2 ^ l :=
        Nat.mul_le_mul_right _ hr
      have h3 := four_pow_as_square l
      omega
  · rintro ⟨r, c⟩ ⟨hr, hc⟩ ⟨r', c'⟩ ⟨hr', hc'⟩ heq
    simp only [Set.mem_Iio] at hr hc hr' hc'
    simp only [nodeIndex_eq] at heq
    have heq' : r * 2 ^ l + c = r' * 2 ^ l + c' := by omega
    obtain ⟨h1, h2⟩ := base_digit_unique hc hc' heq'
    simp [Prod.ext_iff, h1, h2]
  · rintro i ⟨hlo, hhi⟩
    rw [fullSize_succ] at hhi
    set j := i - fullSize l with hj
    have hjlt : j < 4 ^ l := by omega
    refine ⟨(j / 2 ^ l, j % 2 ^ l), ⟨?_, ?_⟩, ?_⟩
    · simp only [Set.mem_Iio]
      have := four_pow_as_square l
      exact Nat.div_lt_of_lt_mul (by omega)
    · simp only [Set.mem_Iio]
      exact Nat.mod_lt _ hpow
    · simp only [nodeIndex_eq]
      have hdm : j / 2 ^ l * 2 ^ l + j % 2 ^ l = j := Nat.div_add_mod' j (2 ^ l)
      omega

theorem nodeIndex_bijOn_witness :
    Set.BijOn (fun p : Nat × Nat => nodeIndex 2 p.1 p.2)
      (Set.Iio (2 ^ 2) ×ˢ Set.Iio (2 ^ 2))
      (Set.Ico (fullSize 2) (fullSize 3)) :=
  nodeIndex_bijOn 2

/-! ## Claim C10 -/

theorem buildTree_exists {T : Type} (d : Nat) (l : List T)
    (h : l.length = 4 ^ d) :
    ∃ t, buildTree l d = some t ∧ mutView t = l := by
  induction d generalizing l with
  | zero =>
    simp only [pow_zero] at h
    match l, h with
    | [a], _ =>
      exact ⟨.element a, by simp [buildTree], by simp [mutView]⟩
  | succ d ih =>
    have hn4 : 4 ^ (d + 1) = 4 * 4 ^ d := by rw [pow_succ]; ring
    have hhalf : 4 ^ (d + 1) / 2 = 2 * 4 ^ d := by omega
    have hquart : 4 ^ (d + 1) / 4 = 4 ^ d := by omega
    have hnw : ((l.take (4 ^ (d + 1) / 2)).take (4 ^ (d + 1) / 4)).length = 4 ^ d := by
      simp only [List.length_take, List.length_drop]; omega
    have hne : ((l.take (4 ^ (d + 1) / 2)).drop (4 ^ (d + 1) / 4)).length = 4 ^ d := by
      simp only [List.length_take, List.length_drop]; omega
    have hse : ((l.drop (4 ^ (d + 1) / 2)).take (4 ^ (d + 1) / 4)).length = 4 ^ d := by
      simp only [List.length_take, List.length_drop]; omega
    have hsw : ((l.drop (4 ^ (d + 1) / 2)).drop (4 ^ (d + 1) / 4)).length = 4 ^ d := by
      simp only [List.length_take, List.length_drop]; omega
    obtain ⟨ta, hta, hva⟩ := ih _ hnw
    obtain ⟨tb, htb, hvb⟩ := ih _ hne
    obtain ⟨tc, htc, hvc⟩ := ih _ hse
    obtain ⟨te, hte, hve⟩ := ih _ hsw
    refine ⟨.quadrant ta tb tc te (d + 1), ?_, ?_⟩
    · rw [buildTree, if_pos h, hta, htb, htc, hte]
    · show mutView ta ++ mutView tb ++ mutView tc ++ mutView te = l
      rw [hva, hvb, hvc, hve]
      rw [List.take_append_drop, List.append_assoc, List.take_append_drop,
        List.take_append_drop]

/-- C10: for every depth `d` and every list of `4^d` elements, `build_tree`
followed by `mut_view` returns exactly the original elements in the original
order: the nw/ne/se/sw split of `build_tree` and the nw/ne/se/sw traversal
of `mut_view` invert each other. -/
theorem buildTree_mutView (d : Nat) {T : Type} (l : List T)
    (h : l.length = 4 ^ d) :
    (buildTree l d).map mutView = some l := by
  obtain ⟨t, ht, hv⟩ := buildTree_exists d l h
  rw [ht, Option.map_some', hv]

theorem buildTree_mutView_witness :
    (buildTree [0, 1, 2, 3] 1).map mutView = some [0, 1, 2, 3] :=
  buildTree_mutView 1 [0, 1, 2, 3] (by decide)

/-! ## `geometry.rs` / `aabb.rs` : vectors, AABB, planes

`f64` coordinates are modelled as rationals: the code only adds, subtracts,
multiplies, compares and takes `min`/`max` on them. -/

/-- `nalgebra::Point3<f64>` / `Vector3<f64>` restricted to the operations
the sources use. -/
@[ext]
structure Vec3 where
  x : ℚ
  y : ℚ
  z : ℚ
  deriving DecidableEq

def Vec3.add (a b : Vec3) : Vec3 := ⟨a.x + b.x, a.y + b.y, a.z + b.z⟩

def Vec3.sub (a b : Vec3) : Vec3 := ⟨a.x - b.x, a.y - b.y, a.z - b.z⟩

/-- `nalgebra`'s `Vector3::dot`. -/
def Vec3.dot (a b : Vec3) : ℚ := a.x * b.x + a.y * b.y + a.z * b.z

/-- `struct AABB<T> { min: Point3<T>, max: Point3<T> }`
(`geometry.rs` line 15, `aabb.rs` line 7). -/
@[ext]
structure AABB where
  min : Vec3
  max : Vec3
  deriving DecidableEq

/-- `AABB::get_vertex_p` (`geometry.rs` lines 28-43): start from `min` and,
per axis, move to `max` whenever the normal's component is `>= 0`. -/
def AABB.getVertexP (b : AABB) (n : Vec3) : Vec3 :=
  ⟨if 0 ≤ n.x then b.max.x else b.min.x,
   if 0 ≤ n.y then b.max.y else b.min.y,
   if 0 ≤ n.z then b.max.z else b.min.z⟩

/-- `AABB::get_vertex_n` (`geometry.rs` lines 45-60): start from `max` and,
per axis, move to `min` whenever the normal's component is `>= 0`. -/
def AABB.getVertexN (b : AABB) (n : Vec3) : Vec3 :=
  ⟨if 0 ≤ n.x then b.min.x else b.max.x,
   if 0 ≤ n.y then b.min.y else b.max.y,
   if 0 ≤ n.z then b.min.z else b.max.z⟩

/-- `impl AddAssign for AABB` (`geometry.rs` lines 102-109 and `aabb.rs`
lines 94-101, identical bodies): per dimension, minimum of the `min`s and
maximum of the `max`es. -/
def AABB.merge (a b : AABB) : AABB :=
  ⟨⟨Min.min a.min.x b.min.x, Min.min a.min.y b.min.y, Min.min a.min.z b.min.z⟩,
   ⟨Max.max a.max.x b.max.x, Max.max a.max.y b.max.y, Max.max a.max.z b.max.z⟩⟩

/-! ## Claim C9 -/

/-- C9: AABB merge (`+=` between boxes) is the component-wise min of the min
corners and max of the max corners, and it is commutative, associative and
idempotent on self-merge. -/
theorem aabb_merge_laws (a b c : AABB) :
    ((a.merge b).min = ⟨min a.min.x b.min.x, min a.min.y b.min.y, min a.min.z b.min.z⟩ ∧
     (a.merge b).max = ⟨max a.max.x b.max.x, max a.max.y b.max.y, max a.max.z b.max.z⟩)
  ∧ a.merge b = b.merge a
  ∧ (a.merge b).merge c = a.merge (b.merge c)
  ∧ a.merge a = a := by
  refine ⟨⟨rfl, rfl⟩, ?_, ?_, ?_⟩
  · ext <;> simp [AABB.merge, min_comm, max_comm]
  · ext <;> simp [AABB.merge, min_assoc, max_assoc]
  · ext <;> simp [AABB.merge]

theorem aabb_merge_laws_witness :
    (((AABB.mk ⟨0, 0, 0⟩ ⟨1, 1, 1⟩).merge (AABB.mk ⟨-1, 2, 0⟩ ⟨0, 3, 2⟩)).min =
        ⟨min (0:ℚ) (-1), min (0:ℚ) 2, min (0:ℚ) 0⟩ ∧
     ((AABB.mk ⟨0, 0, 0⟩ ⟨1, 1, 1⟩).merge (AABB.mk ⟨-1, 2, 0⟩ ⟨0, 3, 2⟩)).max =
        ⟨max (1:ℚ) 0, max (1:ℚ) 3, max (1:ℚ) 2⟩)
  ∧ (AABB.mk ⟨0, 0, 0⟩ ⟨1, 1, 1⟩).merge (AABB.mk ⟨-1, 2, 0⟩ ⟨0, 3, 2⟩) =
      (AABB.mk ⟨-1, 2, 0⟩ ⟨0, 3, 2⟩).merge (AABB.mk ⟨0, 0, 0⟩ ⟨1, 1, 1⟩)
  ∧ ((AABB.mk ⟨0, 0, 0⟩ ⟨1, 1, 1⟩).merge (AABB.mk ⟨-1, 2, 0⟩ ⟨0, 3, 2⟩)).merge
        (AABB.mk ⟨5, 5, 5⟩ ⟨6, 6, 6⟩) =
      (AABB.mk ⟨0, 0, 0⟩ ⟨1, 1, 1⟩).merge
        ((AABB.mk ⟨-1, 2, 0⟩ ⟨0, 3, 2⟩).merge (AABB.mk ⟨5, 5, 5⟩ ⟨6, 6, 6⟩))
  ∧ (AABB.mk ⟨0, 0, 0⟩ ⟨1, 1, 1⟩).merge (AABB.mk ⟨0, 0, 0⟩ ⟨1, 1, 1⟩) =
      AABB.mk ⟨0, 0, 0⟩ ⟨1, 1, 1⟩ :=
  aabb_merge_laws (AABB.mk ⟨0, 0, 0⟩ ⟨1, 1, 1⟩) (AABB.mk ⟨-1, 2, 0⟩ ⟨0, 3, 2⟩)
    (AABB.mk ⟨5, 5, 5⟩ ⟨6, 6, 6⟩)

/-! ## `geometry.rs` : planes, frustum, intersection -/

/-- `struct Plane { normal: Vector3<f64>, point: Point3<f64> }`
(`geometry.rs` lines 120-124). -/
structure Plane where
  normal : Vec3
  point : Vec3
  deriving DecidableEq

/-- `Plane::distance(point) = normal.dot(point - self.point)`
(`geometry.rs` lines 127-129). -/
def Plane.distance (pl : Plane) (q : Vec3) : ℚ := pl.normal.dot (q.sub pl.point)

/-- `struct Frustum` with its six faces (`geometry.rs` lines 132-142). -/
structure Frustum where
  topFace : Plane
  bottomFace : Plane
  leftFace : Plane
  rightFace : Plane
  nearFace : Plane
  farFace : Plane
  deriving DecidableEq

/-- The fixed iteration order of `Frustum::intersect`
(`geometry.rs` lines 191-198). -/
def Frustum.planes (f : Frustum) : List Plane :=
  [f.farFace, f.nearFace, f.topFace, f.bottomFace, f.rightFace, f.leftFace]

/-- `enum IntersectionStatus { Outside, Intersecting, Inside }`
(`geometry.rs` lines 8-12). -/
inductive IntersectionStatus : Type where
  | Outside : IntersectionStatus
  | Intersecting : IntersectionStatus
  | Inside : IntersectionStatus
  deriving DecidableEq

/-- The `for (i, plane) in planes.iter().enumerate()` loop body of
`Frustum::intersect` (`geometry.rs` lines 200-218), with the mutable
`intersect` flag passed as an accumulator: return `Outside` as soon as the
distance to the p-vertex is negative, otherwise fold in whether the distance
to the n-vertex is negative. -/
def intersectLoop (box : AABB) : List Plane → Bool → IntersectionStatus
  | [], acc => if acc then .Intersecting else .Inside
  | pl :: ps, acc =>
    if pl.distance (box.getVertexP pl.normal) < 0 then .Outside
    else intersectLoop box ps (acc || decide (pl.distance (box.getVertexN pl.normal) < 0))

/-- `Frustum::intersect` (`geometry.rs` lines 190-219). -/
def Frustum.intersect (f : Frustum) (box : AABB) : IntersectionStatus :=
  intersectLoop box f.planes false

theorem intersectLoop_outside_iff (box : AABB) (ps : List Plane) (acc : Bool) :
    intersectLoop box ps acc = .Outside ↔
      ∃ pl ∈ ps, pl.distance (box.getVertexP pl.normal) < 0 := by
  induction ps generalizing acc with
  | nil =>
    simp only [intersectLoop, List.not_mem_nil, false_and, exists_false, iff_false]
    split <;> simp
  | cons p ps ih =>
    rw [intersectLoop]
    by_cases hp : p.distance (box.getVertexP p.normal) < 0
    · simp [hp]
    · simp only [hp, if_false, ih]
      simp [hp]

theorem intersectLoop_intersecting_iff (box : AABB) (ps : List Plane) (acc : Bool) :
    intersectLoop box ps acc = .Intersecting ↔
      (∀ pl ∈ ps, 0 ≤ pl.distance (box.getVertexP pl.normal)) ∧
      (acc = true ∨ ∃ pl ∈ ps, pl.distance (box.getVertexN pl.normal) < 0) := by
  induction ps generalizing acc with
  | nil =>
    simp only [intersectLoop, List.not_mem_nil, false_and, exists_false, or_false]
    split <;> simp_all
  | cons p ps ih =>
    rw [intersectLoop]
    by_cases hp : p.distance (box.getVertexP p.normal) < 0
    · simp only [hp, if_true]
      constructor
      · intro h; cases h
      · rintro ⟨hall, -⟩
        exact absurd (hall p (by simp)) (by simpa using hp)
    · simp only [hp, if_false, ih]
      rw [not_lt] at hp
      constructor
      · rintro ⟨hall, hacc⟩
        refine ⟨?_, ?_⟩
        · intro pl hpl
          rcases List.mem_cons.mp hpl with h | h
          · exact h ▸ hp
          · exact hall pl h
        · rcases hacc with hacc | ⟨pl, hpl, hd⟩
          · rcases Bool.or_eq_true_iff.mp hacc with h | h
            · exact Or.inl h
            · exact Or.inr ⟨p, by simp, of_decide_eq_true h⟩
          · exact Or.inr ⟨pl, by simp [hpl], hd⟩
      · rintro ⟨hall, hacc⟩
        refine ⟨fun pl hpl => hall pl (by simp [hpl]), ?_⟩
        rcases hacc with hacc | ⟨pl, hpl, hd⟩
        · exact Or.inl (by simp [hacc])
        · rcases List.mem_cons.mp hpl with h | h
          · exact Or.inl (by simp [h ▸ hd])
          · exact Or.inr ⟨pl, h, hd⟩

theorem intersectLoop_inside_iff (box : AABB) (ps : List Plane) (acc : Bool) :
    intersectLoop box ps acc = .Inside ↔
      (∀ pl ∈ ps, 0 ≤ pl.distance (box.getVertexP pl.normal)) ∧
      acc = false ∧
      (∀ pl ∈ ps, 0 ≤ pl.distance (box.getVertexN pl.normal)) := by
  induction ps generalizing acc with
  | nil =>
    simp only [intersectLoop, List.not_mem_nil, false_implies, implies_true, true_and]
    split <;> simp_all
  | cons p ps ih =>
    rw [intersectLoop]
    by_cases hp : p.distance (box.getVertexP p.normal) < 0
    · simp only [hp, if_true]
      constructor
      · intro h; cases h
      · rintro ⟨hall, -⟩
        exact absurd (hall p (by simp)) (by simpa using hp)
    · simp only [hp, if_false, ih]
      rw [not_lt] at hp
      constructor
      · rintro ⟨hall, hacc, hn⟩
        rcases Bool.or_eq_false_iff.mp hacc with ⟨h1, h2⟩
        refine ⟨?_, h1, ?_⟩
        · intro pl hpl
          rcases List.mem_cons.mp hpl with h | h
          · exact h ▸ hp
          · exact hall pl h
        · intro pl hpl
          rcases List.mem_cons.mp hpl with h | h
          · subst h; simpa using of_decide_eq_false h2
          · exact hn pl h
      · rintro ⟨hall, hacc, hn⟩
        refine ⟨fun pl hpl => hall pl (by simp [hpl]), ?_, fun pl hpl => hn pl (by simp [hpl])⟩
        rw [Bool.or_eq_false_iff]
        refine ⟨hacc, decide_eq_false ?_⟩
        simpa using hn p (by simp)

/-! ## Claim C4 -/

/-- C4: for every frustum and AABB, `intersect` returns `Outside` exactly when
some plane (in the fixed order) sees the p-vertex at negative distance, and in
that case the loop short-circuits: once such a plane is reached the result is
`Outside` no matter what the remaining planes or the accumulated flag are;
otherwise the result is `Intersecting` exactly when some plane sees the
n-vertex at negative distance, and `Inside` exactly when all six planes see
both vertices at non-negative distance. -/
theorem frustum_intersect_claim (f : Frustum) (box : AABB) :
    (f.intersect box = .Outside ↔
      ∃ pl ∈ f.planes, pl.distance (box.getVertexP pl.normal) < 0)
  ∧ (f.intersect box = .Intersecting ↔
      (∀ pl ∈ f.planes, 0 ≤ pl.distance (box.getVertexP pl.normal)) ∧
      ∃ pl ∈ f.planes, pl.distance (box.getVertexN pl.normal) < 0)
  ∧ (f.intersect box = .Inside ↔
      ∀ pl ∈ f.planes, 0 ≤ pl.distance (box.getVertexP pl.normal) ∧
        0 ≤ pl.distance (box.getVertexN pl.normal))
  ∧ (∀ (pl : Plane) (ps : List Plane) (acc : Bool),
      pl.distance (box.getVertexP pl.normal) < 0 →
      intersectLoop box (pl :: ps) acc = .Outside) := by
  refine ⟨?_, ?_, ?_, ?_⟩
  · exact intersectLoop_outside_iff box f.planes false
  · rw [Frustum.intersect, intersectLoop_intersecting_iff]
    simp
  · rw [Frustum.intersect, intersectLoop_inside_iff]
    simp [forall_and]
  · intro pl ps acc h
    rw [intersectLoop, if_pos h]

/-! ## `geometry.rs` : `Frustum::new` half-extents (claim C2)

Only the scalar camera fields entering the half-extent computation are
modelled (`camera.rs` declares `far_z`, `fov`, `asepect_ratio` — spelling as
in the source — alongside the position/orientation vectors, which the
half-extent computation does not read).  Trigonometry forces the model into
`ℝ`. -/

structure Camera where
  farZ : ℝ
  fov : ℝ
  asepectRatio : ℝ

/-- Rust `f64::to_radians`: multiply by `π/180`. -/
noncomputable def toRadians (x : ℝ) : ℝ := x * Real.pi / 180

/-- `let half_h_side = camera.far_z * (camera.fov * 0.5).to_radians().tan();`
(`geometry.rs` line 146). -/
noncomputable def halfHSide (c : Camera) : ℝ :=
  c.farZ * Real.tan (toRadians (c.fov * 0.5))

/-- `let half_v_side = half_h_side * camera.asepect_ratio;`
(`geometry.rs` line 147).  `half_v_side` is the vertical half-extent: it is
the one used to build the top and bottom frustum faces
(`geometry.rs` lines 175-186). -/
noncomputable def halfVSide (c : Camera) : ℝ :=
  halfHSide c * c.asepectRatio

/-! ## Claim C2 -/

/-- C2 counterexample: for the camera with `far_z = 1`, `fov = 90°`,
`aspect_ratio = 2`, the vertical half-extent computed by `Frustum::new` is
`tan(45°) · 2 = 2`, not `far_z · tan(fov/2) = 1` as the claim states: in
`geometry.rs` the tangent term is the *horizontal* half-extent and the
aspect-ratio multiplication produces the *vertical* one. -/
theorem frustum_half_extents_counterexample :
    halfVSide ⟨1, 90, 2⟩ ≠
      (Camera.mk 1 90 2).farZ * Real.tan (toRadians ((Camera.mk 1 90 2).fov * 0.5)) := by
  show (1 : ℝ) * Real.tan (toRadians ((90 : ℝ) * 0.5)) * 2 ≠
    1 * Real.tan (toRadians ((90 : ℝ) * 0.5))
  have hrad : toRadians ((90 : ℝ) * 0.5) = Real.pi / 4 := by
    unfold toRadians; ring
  rw [hrad, Real.tan_pi_div_four]
  norm_num

/-- C2 amended: `Frustum::new` computes the horizontal half-extent as
`half_h = far_z · tan(fov/2 in radians)` and the vertical half-extent as
`half_v = half_h · aspect_ratio`; the tangent term gives the horizontal
extent, and multiplication by the aspect ratio gives the vertical extent. -/
theorem frustum_half_extents (c : Camera) :
    halfHSide c = c.farZ * Real.tan (toRadians (c.fov * 0.5)) ∧
    halfVSide c = (c.farZ * Real.tan (toRadians (c.fov * 0.5))) * c.asepectRatio :=
  ⟨rfl, rfl⟩

/-! ## The value-at-every-node complete quadtree (claim C1)

`cell.rs` line 217 calls `QuadTree::build_complete_tree(tiles, depth)` with
`full_size(depth)` tiles (one value per node, levels `0..depth`), but no
definition of `build_complete_tree` exists anywhere under the sources — only
this caller (likewise `items_at_level`, called from `app.rs`/`map.rs`).  The
structure and builder are therefore modelled from the spec. -/

/-- Modelled from the spec: the quadtree shape required by
`build_complete_tree` — "a tree where every internal node carries a value of
type T and exactly four children (nw, ne, se, sw); leaves carry only a
value" (spec §3).  The definition is missing from the sources. -/
inductive CQuadTree (T : Type) : Type where
  | leaf (v : T) : CQuadTree T
  | node (v : T) (nw ne se sw : CQuadTree T) : CQuadTree T
  deriving DecidableEq

/-- Depth-first node-before-children traversal order of the values, as the
spec §4.2 prescribes for `mut_view()` on this tree shape ("pre-order (node
itself before its children)", nw, ne, se, sw). -/
def CQuadTree.toList {T : Type} : CQuadTree T → List T
  | .leaf v => [v]
  | .node v a b c e => v :: (a.toList ++ b.toList ++ c.toList ++ e.toList)

/-- In-place mutation of every node value through `mut_view()`, modelled as
a map over the tree. -/
def CQuadTree.map {T U : Type} (f : T → U) : CQuadTree T → CQuadTree U
  | .leaf v => .leaf (f v)
  | .node v a b c e => .node (f v) (a.map f) (b.map f) (c.map f) (e.map f)

theorem CQuadTree.toList_map {T U : Type} (f : T → U) (t : CQuadTree T) :
    (t.map f).toList = t.toList.map f := by
  induction t with
  | leaf v => rfl
  | node v a b c e iha ihb ihc ihe => simp [CQuadTree.map, CQuadTree.toList, iha, ihb, ihc, ihe]

theorem CQuadTree.map_map {T U V : Type} (f : T → U) (g : U → V) (t : CQuadTree T) :
    (t.map f).map g = t.map (fun x => g (f x)) := by
  induction t with
  | leaf v => rfl
  | node v a b c e iha ihb ihc ihe => simp [CQuadTree.map, iha, ihb, ihc, ihe]

/-- Modelled from the spec (§4.2): recursive construction of the complete
quadtree from the flat node list — "node at flat position `i`, level `ℓ`,
has children at flat positions derived by `(i << 2) + {1,2,3,4}` for
nw/ne/se/sw respectively, at level `ℓ+1`; recursion terminates at
`level == depth-1`, producing a leaf".  The second argument is the number
of levels remaining below and including node `i`. -/
def buildAt {T : Type} (l : List T) : Nat → Nat → Option (CQuadTree T)
  | _, 0 => none
  | i, 1 => (l[i]?).map .leaf
  | i, fuel + 2 =>
    (l[i]?).bind fun v =>
    (buildAt l (4 * i + 1) (fuel + 1)).bind fun a =>
    (buildAt l (4 * i + 2) (fuel + 1)).bind fun b =>
    (buildAt l (4 * i + 3) (fuel + 1)).bind fun c =>
    (buildAt l (4 * i + 4) (fuel + 1)).map fun e => .node v a b c e

/-- Modelled from the spec (§4.2): `build_complete_tree(elements, depth)`
"requires `elements.len() == full_size(depth)`; fails (or is a programmer
contract violation) otherwise".  The failure is modelled as `none`. -/
def buildCompleteTree {T : Type} (l : List T) (depth : Nat) : Option (CQuadTree T) :=
  if l.length = fullSize depth then buildAt l 0 depth else none

theorem buildAt_isSome {T : Type} (l : List T) :
    ∀ (fuel i : Nat), 1 ≤ fuel →
      4 ^ (fuel - 1) * (i + 1) + fullSize (fuel - 1) ≤ l.length →
      (buildAt l i fuel).isSome := by
  intro fuel
  induction fuel using Nat.strong_induction_on with
  | _ fuel ih =>
    match fuel with
    | 0 => intro i h; omega
    | 1 =>
      intro i _ hbound0
      have hbound : 4 ^ 0 * (i + 1) + fullSize 0 ≤ l.length := hbound0
      have hi : i < l.length := by
        have h0 : fullSize 0 = 0 := by decide
        have hp : (4 : Nat) ^ 0 = 1 := by norm_num
        rw [h0, hp, one_mul] at hbound
        omega
      rw [buildAt, List.getElem?_eq_getElem hi]
      rfl
    | f + 2 =>
      intro i _ hbound0
      have hbound : 4 ^ (f + 1) * (i + 1) + fullSize (f + 1) ≤ l.length := hbound0
      have hfs : fullSize (f + 1) = fullSize f + 4 ^ f := fullSize_succ f
      have hpow : 4 ^ (f + 1) = 4 * 4 ^ f := by rw [pow_succ]; ring
      have hchild : ∀ j, 1 ≤ j → j ≤ 4 →
          4 ^ f * (4 * i + j + 1) + fullSize f ≤ l.length := by
        intro j h1 h4
        have hstep : 4 ^ f * (4 * i + j + 1) ≤ 4 ^ f * (4 * i + 5) :=
          Nat.mul_le_mul_left _ (by omega)
        have hident : 4 ^ f * (4 * i + 5) + fullSize f =
            4 ^ (f + 1) * (i + 1) + fullSize (f + 1) := by
          rw [hfs, hpow]; ring
        omega
      have hi : i < l.length := by
        have hone : 1 ≤ 4 ^ (f + 1) := Nat.one_le_pow _ _ (by norm_num)
        have : i + 1 ≤ 4 ^ (f + 1) * (i + 1) := Nat.le_mul_of_pos_left _ (by omega)
        omega
      obtain ⟨a, ha⟩ := Option.isSome_iff_exists.mp
        (ih (f + 1) (by omega) (4 * i + 1) (by omega)
          (by simpa using hchild 1 (by omega) (by omega)))
      obtain ⟨b, hb⟩ := Option.isSome_iff_exists.mp
        (ih (f + 1) (by omega) (4 * i + 2) (by omega)
          (by simpa using hchild 2 (by omega) (by omega)))
      obtain ⟨c, hc⟩ := Option.isSome_iff_exists.mp
        (ih (f + 1) (by omega) (4 * i + 3) (by omega)
          (by simpa using hchild 3 (by omega) (by omega)))
      obtain ⟨e, he⟩ := Option.isSome_iff_exists.mp
        (ih (f + 1) (by omega) (4 * i + 4) (by omega)
          (by simpa using hchild 4 (by omega) (by omega)))
      rw [buildAt, List.getElem?_eq_getElem hi, Option.some_bind, ha,
        Option.some_bind, hb, Option.some_bind, hc, Option.some_bind, he]
      rfl

theorem buildCompleteTree_isSome_of_length {T : Type} (l : List T) (d : Nat)
    (hd : 1 ≤ d) (hlen : l.length = fullSize d) :
    (buildCompleteTree l d).isSome := by
  rw [buildCompleteTree, if_pos hlen]
  apply buildAt_isSome l d 0 hd
  obtain ⟨d', rfl⟩ : ∃ d', d = d' + 1 := ⟨d - 1, by omega⟩
  rw [hlen, fullSize_succ]
  simp only [Nat.add_sub_cancel, Nat.mul_one]
  omega

/-! ## Claim C1 -/

/-- C1: building a complete quadtree from a flat element list succeeds
exactly when the list length equals `full_size(depth)`, and fails for every
list of any other length.  (`build_complete_tree` is absent from the
sources; modelled from the spec.) -/
theorem buildCompleteTree_length_iff {T : Type} (l : List T) (d : Nat)
    (hd : 1 ≤ d) :
    (buildCompleteTree l d).isSome ↔ l.length = fullSize d := by
  constructor
  · intro h
    by_contra hne
    rw [buildCompleteTree, if_neg hne] at h
    exact Bool.noConfusion h
  · exact buildCompleteTree_isSome_of_length l d hd

theorem buildCompleteTree_length_iff_witness :
    ((buildCompleteTree [10, 11, 12, 13, 14] 2).isSome ↔
      [10, 11, 12, 13, 14].length = fullSize 2) ∧
    ((buildCompleteTree [10, 11, 12, 13] 2).isSome ↔
      [10, 11, 12, 13].length = fullSize 2) :=
  ⟨buildCompleteTree_length_iff [10, 11, 12, 13, 14] 2 (by decide),
   buildCompleteTree_length_iff [10, 11, 12, 13] 2 (by decide)⟩

/-! ## `cell.rs` : chunks, tiles, cells; `map.rs` : map parameters

Only the fields the verified claims read are modelled.  `Chunk`'s decoded
payload (`max_error: f32`, `min_y/max_y: i16`, vertices, indices) is carried
along; its vertex decoding is not itself under proof here. -/

/-- `struct Chunk { max_error: f32, min_y: i16, max_y: i16,
vertices: Vec<HFVertex>, indices: Vec<u16> }` (`cell.rs` lines 298-305),
with an `HFVertex` as its four `f32` components. -/
structure Chunk where
  maxError : ℚ
  minY : ℤ
  maxY : ℤ
  vertices : List (ℚ × ℚ × ℚ × ℚ)
  indices : List Nat
  deriving DecidableEq

/-- `struct Tile { chunk: Chunk, position: (u32, u32), level: u32,
bbox: Option<AABB<f64>> }` (`cell.rs` lines 154-162); `position` is
`(row, col)`. -/
structure Tile where
  chunk : Chunk
  position : Nat × Nat
  level : Nat
  bbox : Option AABB
  deriving DecidableEq

/-- The map parameters read by cell/tile placement: `h-scale`, `v-scale`,
`base-elev` and `cell-size` of `MapInfo` (`map.rs` lines 8-48; the metadata
fields not read by placement are omitted). -/
structure MapInfo where
  hScale : ℚ
  vScale : ℚ
  baseElevation : ℚ
  cellWidth : Nat
  deriving DecidableEq

/-- `struct Map` restricted to its `info` (placement reads nothing else of
the map). -/
structure Map where
  info : MapInfo
  deriving DecidableEq

/-- `Map::world_cell_width() = info.cell_width as f64 * info.h_scale as f64`
(`map.rs` lines 163-165). -/
def Map.worldCellWidth (m : Map) : ℚ := (m.info.cellWidth : ℚ) * m.info.hScale

/-- `struct Cell` (`cell.rs` lines 44-53) restricted to the fields the
claims read: grid `position` (row, col), `depth`, the tile quadtree `lod`,
and `worldly_width` (the texture quadtrees play no role in the claims). -/
structure Cell where
  position : Nat × Nat
  depth : Nat
  lod : CQuadTree Tile
  worldlyWidth : Option ℚ
  deriving DecidableEq

/-- `Cell::is_in_map` (`cell.rs` lines 111-113). -/
def Cell.isInMap (c : Cell) : Bool := c.worldlyWidth.isSome

/-- The `Some` branch of `Cell::corner_world_position` (`cell.rs` lines
125-135): `(width · col, 0, width · row)`. -/
def cornerWorldPositionOf (w : ℚ) (pos : Nat × Nat) : Vec3 :=
  ⟨w * (pos.2 : ℚ), 0, w * (pos.1 : ℚ)⟩

/-- `Cell::corner_world_position` (`cell.rs` lines 125-135); the `None`
branch panics in the source and is modelled as `none`. -/
def Cell.cornerWorldPosition (c : Cell) : Option Vec3 :=
  c.worldlyWidth.map (fun w => cornerWorldPositionOf w c.position)

/-- `Tile::put_in_map_in_cell(cell_world_pos, map)` (`cell.rs` lines
169-186): the north-west corner offsets the cell corner by the tile's
scaled grid position and the chunk's minimum elevation, the south-east
corner adds the LOD-scaled tile width (`h_scale · (cell_width >> level)`)
and replaces `y` by the maximum elevation; the tile's `bbox` is overwritten
with this box, built from the current fields only. -/
def Tile.putInMapInCell (t : Tile) (cellWorldPos : Vec3) (m : Map) : Tile :=
  let tileNwPos := cellWorldPos.add
    ⟨m.info.hScale * (t.position.2 : ℚ),
     m.info.baseElevation + m.info.vScale * (t.chunk.minY : ℚ),
     m.info.hScale * (t.position.1 : ℚ)⟩
  let tileWorldlyWidth := m.info.hScale * ((m.info.cellWidth >>> t.level : Nat) : ℚ)
  let tileSePos :=
    { tileNwPos.add ⟨tileWorldlyWidth, 0, tileWorldlyWidth⟩ with
      y := m.info.baseElevation + m.info.vScale * (t.chunk.maxY : ℚ) }
  { t with bbox := some ⟨tileNwPos, tileSePos⟩ }

/-- `Cell::put_in_map(map)` (`cell.rs` lines 115-123): set `worldly_width`
to the map's world cell width, compute the cell's world corner from the
just-set width, and run `put_in_map_in_cell` on every tile through
`mut_view` (a map over every node value). -/
def Cell.putInMap (c : Cell) (m : Map) : Cell :=
  { c with
    worldlyWidth := some m.worldCellWidth,
    lod := c.lod.map (fun t =>
      t.putInMapInCell (cornerWorldPositionOf m.worldCellWidth c.position) m) }

/-- The tile-reading loop of `QuadTree::<Tile>::read_from` (`cell.rs` lines
195-215): for each `level` in `0..depth`, each `row` and `col` in
`0..2^level`, decode the chunk for that node (abstracted as the function
`chunks`, indexed exactly like the offset table) and emit a tile with
`bbox: None`. -/
def readTiles (depth : Nat) (chunks : Nat → Nat → Nat → Chunk) : List Tile :=
  (List.range depth).flatMap fun level =>
    (List.range (2 ^ level)).flatMap fun row =>
      (List.range (2 ^ level)).map fun col =>
        { chunk := chunks level row col
          position := (row, col)
          level := level
          bbox := none }

/-- `struct CellHeader { magic: u32, compressed: bool, size: u32,
depth: u32 }` as parsed by `CellHeader::read_from` (`cell.rs` lines 16-41;
the `compressed` flag is the decoded `u32 != 0`). -/
structure CellHeader where
  magic : Nat
  compressed : Bool
  size : Nat
  depth : Nat
  deriving DecidableEq

/-- `Cell::MAGIC = 0x63656C6C` (`cell.rs` line 56). -/
def cellMagic : Nat := 0x63656C6C

/-- `Cell::MIN_DEPTH = 1` (`cell.rs` line 57). -/
def cellMinDepth : Nat := 1

/-- `Cell::MAX_DEPTH = 9` (`cell.rs` line 58). -/
def cellMaxDepth : Nat := 9

/-- `Cell::new` (`cell.rs` lines 60-109) after the header has been parsed:
the four validations in source order with the source's error strings, then
the offset-table/tile read (I/O abstracted into `chunks`) and the quadtree
assembly; `worldly_width` starts as `None`.  The final error stands for the
source's chunk-read failures. -/
def cellNew (position : Nat × Nat) (h : CellHeader) (cellWidth : Nat)
    (chunks : Nat → Nat → Nat → Chunk) : Except String Cell :=
  if h.magic ≠ cellMagic then .error "Invalid magic no."
  else if h.compressed then .error "Compressed cells are not supported yet"
  else if h.size ≠ cellWidth then .error "Cell size does not match map cell size"
  else if h.depth < cellMinDepth ∨ h.depth > cellMaxDepth then
    .error "Depth out of supported range."
  else
    match buildCompleteTree (readTiles h.depth chunks) h.depth with
    | some lod =>
      .ok { position := position, depth := h.depth, lod := lod, worldlyWidth := none }
    | none => .error "Unable to read chunk"

theorem sum_const_range (n c : Nat) : ((List.range n).map (fun _ => c)).sum = n * c := by
  induction n with
  | zero => simp
  | succ n ih => rw [List.range_succ]; simp [ih]; ring

theorem readTiles_length (depth : Nat) (chunks : Nat → Nat → Nat → Chunk) :
    (readTiles depth chunks).length = fullSize depth := by
  induction depth with
  | zero => rfl
  | succ d ih =>
    have hsplit : readTiles (d + 1) chunks = readTiles d chunks ++
        ((List.range (2 ^ d)).flatMap fun row =>
          (List.range (2 ^ d)).map fun col =>
            ({ chunk := chunks d row col, position := (row, col), level := d,
               bbox := none } : Tile)) := by
      rw [readTiles, List.range_succ, List.flatMap_append, readTiles]
      simp only [List.flatMap_cons, List.flatMap_nil, List.append_nil]
    have hblock :
        (((List.range (2 ^ d)).flatMap fun row =>
          (List.range (2 ^ d)).map fun col =>
            ({ chunk := chunks d row col, position := (row, col), level := d,
               bbox := none } : Tile)).length) = 4 ^ d := by
      simp only [List.length_flatMap, Function.comp_def, List.length_map, List.length_range]
      rw [sum_const_range (2 ^ d) (2 ^ d), ← four_pow_as_square d]
    rw [hsplit, List.length_append, ih, hblock, fullSize_succ]

theorem readTiles_bbox (depth : Nat) (chunks : Nat → Nat → Nat → Chunk) :
    ∀ t ∈ readTiles depth chunks, t.bbox = none := by
  intro t ht
  simp only [readTiles, List.mem_flatMap, List.mem_map, List.mem_range] at ht
  obtain ⟨level, -, row, -, col, -, rfl⟩ := ht
  rfl

theorem mem_of_getElem_eq_some {T : Type} {l : List T} {i : Nat} {v : T}
    (h : l[i]? = some v) : v ∈ l := by
  rw [List.getElem?_eq_some] at h
  obtain ⟨hlt, rfl⟩ := h
  exact List.getElem_mem hlt

theorem buildAt_mem {T : Type} (l : List T) :
    ∀ (fuel i : Nat) (t : CQuadTree T), buildAt l i fuel = some t →
      ∀ x ∈ t.toList, x ∈ l := by
  intro fuel
  induction fuel using Nat.strong_induction_on with
  | _ fuel ih =>
    match fuel with
    | 0 => intro i t ht; exact absurd ht (by simp [buildAt])
    | 1 =>
      intro i t ht x hx
      rw [buildAt, Option.map_eq_some'] at ht
      obtain ⟨v, hv, rfl⟩ := ht
      simp only [CQuadTree.toList, List.mem_singleton] at hx
      subst hx
      exact mem_of_getElem_eq_some hv
    | f + 2 =>
      intro i t ht x hx
      rw [buildAt] at ht
      simp only [Option.bind_eq_some, Option.map_eq_some'] at ht
      obtain ⟨v, hv, a, ha, b, hb, c, hc, e, he, rfl⟩ := ht
      simp only [CQuadTree.toList, List.mem_cons, List.mem_append] at hx
      rcases hx with rfl | ((hx | hx) | hx) | hx
      · exact mem_of_getElem_eq_some hv
      · exact ih (f + 1) (by omega) _ _ ha x hx
      · exact ih (f + 1) (by omega) _ _ hb x hx
      · exact ih (f + 1) (by omega) _ _ hc x hx
      · exact ih (f + 1) (by omega) _ _ he x hx

theorem cellNew_ok_of_valid (pos : Nat × Nat) (h : CellHeader) (w : Nat)
    (chunks : Nat → Nat → Nat → Chunk)
    (hm : h.magic = cellMagic) (hc : h.compressed = false) (hs : h.size = w)
    (hd : ¬(h.depth < cellMinDepth ∨ h.depth > cellMaxDepth)) :
    ∃ lod, buildCompleteTree (readTiles h.depth chunks) h.depth = some lod ∧
      cellNew pos h w chunks =
        .ok { position := pos, depth := h.depth, lod := lod, worldlyWidth := none } := by
  have hd1 : 1 ≤ h.depth := by
    simp only [cellMinDepth, cellMaxDepth] at hd
    omega
  obtain ⟨lod, hlod⟩ := Option.isSome_iff_exists.mp
    (buildCompleteTree_isSome_of_length (readTiles h.depth chunks) h.depth hd1
      (readTiles_length h.depth chunks))
  refine ⟨lod, hlod, ?_⟩
  rw [cellNew, if_neg (not_not_intro hm), if_neg (by simp [hc]),
    if_neg (not_not_intro hs), if_neg hd, hlod]

theorem cellNew_spec (pos : Nat × Nat) (h : CellHeader) (w : Nat)
    (chunks : Nat → Nat → Nat → Chunk) :
    (h.magic ≠ cellMagic ∧ cellNew pos h w chunks = .error "Invalid magic no.")
  ∨ (h.magic = cellMagic ∧ h.compressed = true ∧
      cellNew pos h w chunks = .error "Compressed cells are not supported yet")
  ∨ (h.magic = cellMagic ∧ h.compressed = false ∧ h.size ≠ w ∧
      cellNew pos h w chunks = .error "Cell size does not match map cell size")
  ∨ (h.magic = cellMagic ∧ h.compressed = false ∧ h.size = w ∧
      (h.depth < cellMinDepth ∨ h.depth > cellMaxDepth) ∧
      cellNew pos h w chunks = .error "Depth out of supported range.")
  ∨ (h.magic = cellMagic ∧ h.compressed = false ∧ h.size = w ∧
      ¬(h.depth < cellMinDepth ∨ h.depth > cellMaxDepth) ∧
      ∃ lod, cellNew pos h w chunks =
        .ok { position := pos, depth := h.depth, lod := lod, worldlyWidth := none }) := by
  by_cases hm : h.magic = cellMagic
  · by_cases hc : h.compressed = true
    · exact Or.inr (Or.inl ⟨hm, hc, by rw [cellNew, if_neg (not_not_intro hm), if_pos hc]⟩)
    · have hc' : h.compressed = false := by
        cases hcv : h.compressed
        · rfl
        · exact absurd hcv hc
      by_cases hs : h.size = w
      · by_cases hd : h.depth < cellMinDepth ∨ h.depth > cellMaxDepth
        · refine Or.inr (Or.inr (Or.inr (Or.inl ⟨hm, hc', hs, hd, ?_⟩)))
          rw [cellNew, if_neg (not_not_intro hm), if_neg (by simp [hc']),
            if_neg (not_not_intro hs), if_pos hd]
        · obtain ⟨lod, -, hok⟩ := cellNew_ok_of_valid pos h w chunks hm hc' hs hd
          exact Or.inr (Or.inr (Or.inr (Or.inr ⟨hm, hc', hs, hd, lod, hok⟩)))
      · refine Or.inr (Or.inr (Or.inl ⟨hm, hc', hs, ?_⟩))
        rw [cellNew, if_neg (not_not_intro hm), if_neg (by simp [hc']), if_pos hs]
  · exact Or.inl ⟨hm, by rw [cellNew, if_pos hm]⟩

/-! ## Claim C7 -/

/-- C7: cell loading validates magic, compressed flag, size and depth in
that order, failing with a distinct error value for each condition (wrong
magic, compression set, size mismatch, depth outside `[1,9]`), and on any
of these failures no quadtree/cell is returned. -/
theorem cellNew_validation (pos : Nat × Nat) (h : CellHeader) (w : Nat)
    (chunks : Nat → Nat → Nat → Chunk) :
    (cellNew pos h w chunks = .error "Invalid magic no." ↔ h.magic ≠ cellMagic)
  ∧ (h.magic = cellMagic →
      (cellNew pos h w chunks = .error "Compressed cells are not supported yet" ↔
        h.compressed = true))
  ∧ (h.magic = cellMagic → h.compressed = false →
      (cellNew pos h w chunks = .error "Cell size does not match map cell size" ↔
        h.size ≠ w))
  ∧ (h.magic = cellMagic → h.compressed = false → h.size = w →
      (cellNew pos h w chunks = .error "Depth out of supported range." ↔
        (h.depth < cellMinDepth ∨ h.depth > cellMaxDepth)))
  ∧ (∀ e, cellNew pos h w chunks = .error e → ∀ c, cellNew pos h w chunks ≠ .ok c)
  ∧ List.Pairwise (fun a b => a ≠ b)
      ["Invalid magic no.", "Compressed cells are not supported yet",
       "Cell size does not match map cell size", "Depth out of supported range."] := by
  rcases cellNew_spec pos h w chunks with
      ⟨hm, he⟩ | ⟨hm, hc, he⟩ | ⟨hm, hc, hs, he⟩ | ⟨hm, hc, hs, hd, he⟩ |
      ⟨hm, hc, hs, hd, lod, he⟩ <;>
    refine ⟨?_, ?_, ?_, ?_, ?_, by decide⟩ <;> simp_all

theorem cellNew_validation_witness :
    ((cellNew (0, 0) ⟨0, false, 8, 1⟩ 8 (fun _ _ _ => ⟨0, 0, 0, [], []⟩) =
        .error "Invalid magic no." ↔ (0 : Nat) ≠ cellMagic)) ∧
    ((cellNew (0, 0) ⟨cellMagic, false, 8, 12⟩ 8 (fun _ _ _ => ⟨0, 0, 0, [], []⟩) =
        .error "Depth out of supported range." ↔
        ((12 : Nat) < cellMinDepth ∨ (12 : Nat) > cellMaxDepth))) :=
  ⟨(cellNew_validation (0, 0) ⟨0, false, 8, 1⟩ 8 (fun _ _ _ => ⟨0, 0, 0, [], []⟩)).1,
   (cellNew_validation (0, 0) ⟨cellMagic, false, 8, 12⟩ 8
      (fun _ _ _ => ⟨0, 0, 0, [], []⟩)).2.2.2.1 rfl rfl rfl⟩

/-! ## Claim C8 -/

/-- C8: every tile satisfies `bbox.is_some() ⇔ placed`: a freshly loaded
cell has `worldly_width = None` and every tile's `bbox = None`, and a single
`put_in_map` call transitions every tile's `bbox` to `Some`. -/
theorem tile_bbox_lifecycle (pos : Nat × Nat) (h : CellHeader) (w : Nat)
    (chunks : Nat → Nat → Nat → Chunk) (c : Cell)
    (hok : cellNew pos h w chunks = .ok c) :
    c.worldlyWidth = none
  ∧ (∀ t ∈ c.lod.toList, t.bbox = none)
  ∧ (∀ m : Map, ∀ t ∈ ((c.putInMap m).lod).toList, (t.bbox).isSome = true) := by
  unfold cellNew at hok
  split_ifs at hok with hm hc hs hd
  · cases hb : buildCompleteTree (readTiles h.depth chunks) h.depth with
    | none => rw [hb] at hok; exact Except.noConfusion hok
    | some lod =>
      rw [hb] at hok
      obtain rfl : Cell.mk pos h.depth lod none = c := Except.ok.inj hok
      refine ⟨rfl, ?_, ?_⟩
      · intro t ht
        rw [buildCompleteTree] at hb
        split at hb
        · exact readTiles_bbox h.depth chunks t (buildAt_mem _ _ _ _ hb t ht)
        · exact absurd hb (by simp)
      · intro m t ht
        simp only [Cell.putInMap] at ht
        rw [CQuadTree.toList_map] at ht
        obtain ⟨y, -, rfl⟩ := List.mem_map.mp ht
        rfl

theorem tile_bbox_lifecycle_witness :
    (Cell.mk (0, 0) 1 (.leaf ⟨⟨0, 0, 0, [], []⟩, (0, 0), 0, none⟩) none).worldlyWidth = none
  ∧ (∀ t ∈ (Cell.mk (0, 0) 1
        (.leaf ⟨⟨0, 0, 0, [], []⟩, (0, 0), 0, none⟩) none).lod.toList, t.bbox = none)
  ∧ (∀ m : Map, ∀ t ∈ (((Cell.mk (0, 0) 1
        (.leaf ⟨⟨0, 0, 0, [], []⟩, (0, 0), 0, none⟩) none).putInMap m).lod).toList,
        (t.bbox).isSome = true) :=
  tile_bbox_lifecycle (0, 0) ⟨cellMagic, false, 8, 1⟩ 8
    (fun _ _ _ => ⟨0, 0, 0, [], []⟩) _ rfl

/-! ## Claim C3 -/

theorem putInMapInCell_idem (t : Tile) (p : Vec3) (m : Map) :
    (t.putInMapInCell p m).putInMapInCell p m = t.putInMapInCell p m := by
  cases t
  rfl

/-- C3 counterexample: a second `put_in_map` call with the same map does
*not* double-offset the tile boxes — on this concrete one-tile cell at grid
position (1,1) (world corner `(2,0,2)`, which is non-zero, so an extra
offset would move the box), the second call reproduces exactly the state
after the first call, and the tile's box stays `[(2,0,2), (4,1,4)]` instead
of shifting to `[(4,0,4), (6,1,6)]`. -/
theorem putInMap_counterexample :
    ((Cell.mk (1, 1) 1 (.leaf ⟨⟨0, 0, 1, [], []⟩, (0, 0), 0, none⟩) none).putInMap
        ⟨⟨1, 1, 0, 2⟩⟩).putInMap ⟨⟨1, 1, 0, 2⟩⟩ =
      (Cell.mk (1, 1) 1 (.leaf ⟨⟨0, 0, 1, [], []⟩, (0, 0), 0, none⟩) none).putInMap
        ⟨⟨1, 1, 0, 2⟩⟩
  ∧ (((Cell.mk (1, 1) 1 (.leaf ⟨⟨0, 0, 1, [], []⟩, (0, 0), 0, none⟩) none).putInMap
        ⟨⟨1, 1, 0, 2⟩⟩).putInMap ⟨⟨1, 1, 0, 2⟩⟩).lod.toList.map Tile.bbox =
      [some (AABB.mk ⟨2, 0, 2⟩ ⟨4, 1, 4⟩)]
  ∧ ((Cell.mk (1, 1) 1 (.leaf ⟨⟨0, 0, 1, [], []⟩, (0, 0), 0, none⟩) none).putInMap
        ⟨⟨1, 1, 0, 2⟩⟩).lod.toList.map Tile.bbox =
      [some (AABB.mk ⟨2, 0, 2⟩ ⟨4, 1, 4⟩)]
  ∧ cornerWorldPositionOf (Map.worldCellWidth ⟨⟨1, 1, 0, 2⟩⟩) (1, 1) = ⟨2, 0, 2⟩
  ∧ AABB.mk ((Vec3.mk 2 0 2).add ⟨2, 0, 2⟩) ((Vec3.mk 4 1 4).add ⟨2, 0, 2⟩) ≠
      AABB.mk ⟨2, 0, 2⟩ ⟨4, 1, 4⟩ := by
  refine ⟨?_, ?_, ?_, ?_, ?_⟩ <;>
    norm_num [Cell.putInMap, Tile.putInMapInCell, CQuadTree.map, CQuadTree.toList,
      cornerWorldPositionOf, Map.worldCellWidth, Vec3.add, AABB.mk.injEq, Vec3.mk.injEq,
      Cell.mk.injEq, Tile.mk.injEq, CQuadTree.leaf.injEq]

/-- C3 amended: `Cell::put_in_map` obeys no single-call restriction in the
source, and none is needed with a fixed map: it overwrites `worldly_width`
and recomputes every tile's world AABB from scratch (the old `bbox` is
never read), so calling it a second time on an already-placed cell leaves
the cell unchanged — `put_in_map` is idempotent, and no double-offset
occurs. -/
theorem putInMap_idempotent (c : Cell) (m : Map) :
    (c.putInMap m).putInMap m = c.putInMap m := by
  cases c with
  | mk pos depth lod ww =>
    simp only [Cell.putInMap, CQuadTree.map_map]
    have hf : (fun t : Tile =>
        (t.putInMapInCell (cornerWorldPositionOf m.worldCellWidth pos) m).putInMapInCell
          (cornerWorldPositionOf m.worldCellWidth pos) m) =
        (fun t => t.putInMapInCell (cornerWorldPositionOf m.worldCellWidth pos) m) :=
      funext fun t => putInMapInCell_idem t _ m
    rw [hf]
